import Mathlib

/-!
Shallow embedding of the notes-app note repository.

The application (React Native / TypeScript) keeps its entire persisted state
under the single AsyncStorage key "notes", holding a JSON array of note
records.  The functions below are translated from the source files:

* `src/types/index.ts` — `Note`, `Category`, `CATEGORIES`
* `NoteScreen.tsx` — `validateContent`, `saveNote`, `handleContentChange`
* `HomeScreen.tsx` — `loadNotes`, `deleteNote`, `getLatestNotesForCategory`
* `SummaryScreen.tsx` — `loadNotes` with the per-category count `reduce`
* `SettingsScreen.tsx` — `clearAllNotes`

Modelling conventions:

* JavaScript strings are modelled as Lean `String`; `s.trim()` is modelled
  by `jsTrim` (strip leading and trailing whitespace, the ECMAScript
  semantics); `s.length` is the character count.
* ISO-8601 timestamps (`new Date().toISOString()`) are modelled as `Nat`
  milliseconds since the epoch (the value of `Date.now()`); comparison of
  two such timestamps via `new Date(s).getTime()` agrees with `Nat`
  comparison, and all `new Date()` calls inside one handler invocation are
  modelled as a single `now : Nat` parameter.
* `Date.now().toString()` is modelled as `Nat.repr now`.
* The persisted value of the "notes" key is modelled by `NotesStorage`:
  `absent` (key missing / removed), `corrupt` (present but `JSON.parse`
  throws), or `stored notes` (a well-formed JSON array of note records).
  `JSON.parse ∘ JSON.stringify` is the identity on note collections.
-/

namespace NotesApp

/-- C constant `MAX_CONTENT_LENGTH = 200` from NoteScreen.tsx. -/
def MAX_CONTENT_LENGTH : Nat := 200

/-- C constant `MIN_CONTENT_LENGTH = 1` from NoteScreen.tsx. -/
def MIN_CONTENT_LENGTH : Nat := 1

/-- Core data structure for a note (interface `Note` in src/types/index.ts).
Timestamps are modelled as `Nat` milliseconds since the epoch. -/
structure Note where
  id : String
  title : String
  content : String
  categoryId : String
  createdAt : Nat
  updatedAt : Nat
deriving Repr, DecidableEq

/-- Data structure for note categories (interface `Category` in
src/types/index.ts). -/
structure Category where
  id : String
  name : String
  color : String
deriving Repr, DecidableEq

/-- Predefined categories (constant `CATEGORIES` in src/types/index.ts). -/
def CATEGORIES : List Category :=
  [ ⟨"work-study", "Work and Study", "#FF6B6B"⟩,
    ⟨"life", "Life", "#4ECDC4"⟩,
    ⟨"health", "Health and Well-being", "#45B7D1"⟩ ]

/-- Whitespace predicate used by JavaScript `String.prototype.trim`. -/
def isJsWhitespace (c : Char) : Bool := c.isWhitespace

/-- JavaScript `s.trim()`: remove leading and trailing whitespace. -/
def jsTrim (s : String) : String :=
  ⟨((s.data.dropWhile isJsWhitespace).reverse.dropWhile isJsWhitespace).reverse⟩

/-- Truthiness of the optional route parameter `route.params?.noteId` in
NoteScreen.tsx: a missing parameter and the empty string are both falsy. -/
def isTruthy : Option String → Bool
  | none => false
  | some s => s ≠ ""

/-- Persisted state of the AsyncStorage "notes" key.  `absent` is a missing
key (`getItem` returns null), `corrupt` a present value on which
`JSON.parse` throws, `stored notes` a well-formed serialized collection. -/
inductive NotesStorage where
  | absent
  | corrupt
  | stored (notes : List Note)
deriving Repr, DecidableEq

/-- Function `loadNotes` of HomeScreen.tsx (and the loading part of
`loadNotes` in SummaryScreen.tsx): read the "notes" key; a missing key or a
`JSON.parse` exception degrades to the empty collection via the
`catch` branch, otherwise the parsed collection is returned.  The function
is total — it never raises to its caller. -/
def loadNotes : NotesStorage → List Note
  | .stored notes => notes
  | _ => []

/-- Function `validateContent` of NoteScreen.tsx: reject when the trimmed
content is empty (`!content.trim()`) or shorter than `MIN_CONTENT_LENGTH`.
Only the returned Boolean is modelled; the `setError` message state is
presentation. -/
def validateContent (content : String) : Bool :=
  if jsTrim content = "" then false
  else if (jsTrim content).length < MIN_CONTENT_LENGTH then false
  else true

/-- Function `saveNote` of NoteScreen.tsx.  Parameters `routeNoteId`,
`title`, `content`, `selectedCategory` are the component's route parameter
and state at the time of the save; `now` is the shared value of the
`Date.now()` / `new Date()` calls in the handler.

Control flow from the source: an invalid draft returns without touching
storage; a `JSON.parse` exception on a corrupt stored value is caught by
the surrounding `try` (alert shown, nothing written); otherwise the new
note record is built — its `id` is the route id when truthy, else
`Date.now().toString()`; its `createdAt` is the found existing note's
`createdAt` (falling back to now) when the route id is truthy, else now —
and the collection is either mapped in place (truthy route id) or appended
to, then written back.  The `|| new Date().toISOString()` fallback on
`createdAt` fires exactly when `find` returns undefined, since a stored
ISO timestamp string is never falsy. -/
def saveNote (storage : NotesStorage) (routeNoteId : Option String)
    (title content selectedCategory : String) (now : Nat) : NotesStorage :=
  if !validateContent content then storage
  else
    match storage with
    | .corrupt => .corrupt
    | _ =>
      let notes := loadNotes storage
      let suppliedId := routeNoteId.getD ""
      let newNote : Note :=
        { id := if isTruthy routeNoteId then suppliedId else Nat.repr now
          title := title
          content := jsTrim content
          categoryId := selectedCategory
          createdAt :=
            if isTruthy routeNoteId then
              match notes.find? (fun n => n.id = suppliedId) with
              | some n => n.createdAt
              | none => now
            else now
          updatedAt := now }
      if isTruthy routeNoteId then
        .stored (notes.map (fun note => if note.id = suppliedId then newNote else note))
      else
        .stored (notes ++ [newNote])

/-- Function `deleteNote` of HomeScreen.tsx: the screen state `notes` holds
the collection loaded on focus (`loadNotes`); the delete handler filters
out the given id and writes the filtered collection back. -/
def deleteNote (storage : NotesStorage) (noteId : String) : NotesStorage :=
  .stored ((loadNotes storage).filter (fun note => note.id ≠ noteId))

/-- Function `clearAllNotes` of SettingsScreen.tsx (confirmed branch):
`AsyncStorage.removeItem('notes')`. -/
def clearAllNotes (_storage : NotesStorage) : NotesStorage := .absent

/-- Function `handleContentChange` of NoteScreen.tsx, acting on the
`(content, error)` component state: text within `MAX_CONTENT_LENGTH` is
applied (clearing any error), longer text leaves the state untouched. -/
def handleContentChange (content : String) (error : Option String)
    (text : String) : String × Option String :=
  if text.length ≤ MAX_CONTENT_LENGTH then
    (text, if error.isSome then none else error)
  else (content, error)

/-- Per-category counts computed in `loadNotes` of SummaryScreen.tsx: the
`CATEGORIES.reduce` builds, in category order, a record mapping each fixed
category id to the number of loaded notes whose `categoryId` equals it;
modelled as an association list in the same order. -/
def countByCategory (notes : List Note) : List (String × Nat) :=
  CATEGORIES.map
    (fun category =>
      (category.id, (notes.filter (fun note => note.categoryId = category.id)).length))

/-- Comparator of `getLatestNotesForCategory` in HomeScreen.tsx:
`(a, b) => new Date(b.createdAt).getTime() - new Date(a.createdAt).getTime()`
sorts by `createdAt` descending; as a Boolean order relation. -/
def noteDateDesc (a b : Note) : Bool := decide (b.createdAt ≤ a.createdAt)

/-- Repository operation `latestForCategory(categoryId, limit)` of the
specification: the body of `getLatestNotesForCategory` in HomeScreen.tsx
with the slice bound `limit` a parameter instead of the hardcoded 3.
JavaScript `Array.prototype.sort` is stable (ECMAScript 2019), modelled by
`List.mergeSort`. -/
def latestForCategory (notes : List Note) (categoryId : String) (limit : Nat) :
    List Note :=
  (((notes.filter (fun note => note.categoryId = categoryId)).mergeSort
    noteDateDesc).take limit)

/-- Function `getLatestNotesForCategory` of HomeScreen.tsx:
filter by category, sort by `createdAt` descending, `slice(0, 3)`. -/
def getLatestNotesForCategory (notes : List Note) (categoryId : String) :
    List Note :=
  latestForCategory notes categoryId 3

/-- Mutating repository operations reachable from the UI, with the data
each handler reads from its screen: `save` carries the NoteScreen route id,
state and clock, `delete` the swiped note's id, `clear` the settings
wipe. -/
inductive RepoOp where
  | save (routeNoteId : Option String) (title content categoryId : String) (now : Nat)
  | delete (noteId : String)
  | clear
deriving Repr, DecidableEq

/-- Apply one repository operation to the persisted storage. -/
def applyRepoOp (storage : NotesStorage) : RepoOp → NotesStorage
  | .save routeNoteId title content categoryId now =>
      saveNote storage routeNoteId title content categoryId now
  | .delete noteId => deleteNote storage noteId
  | .clear => clearAllNotes storage

/-- Run a sequence of repository operations from the initial storage state
(no "notes" key has ever been written). -/
def runRepo (ops : List RepoOp) : NotesStorage :=
  ops.foldl applyRepoOp .absent

/-- Ids of the notes of a collection, in order. -/
def noteIds (notes : List Note) : List String := notes.map Note.id

/-- Timestamps of the new-note saves (falsy route id) of an operation
sequence, in order: these are the `Date.now()` values from which
`saveNote` synthesizes ids. -/
def createTimes : List RepoOp → List Nat
  | [] => []
  | .save routeNoteId _ _ _ now :: ops =>
      if isTruthy routeNoteId then createTimes ops else now :: createTimes ops
  | _ :: ops => createTimes ops

/-- Membership of a category id in the fixed category set. -/
def validCategoryId (categoryId : String) : Bool :=
  CATEGORIES.any (fun c => c.id = categoryId)

/-- State of the running app as far as note persistence is concerned: the
storage plus the NoteScreen state feeding `saveNote` (route parameter and
selected category). -/
structure AppState where
  storage : NotesStorage
  routeNoteId : Option String
  selectedCategory : String
deriving Repr, DecidableEq

/-- Category restored by the `loadNote` effect of NoteScreen.tsx: the found
note's `categoryId`, or the current selection when the id is not found. -/
def loadNoteCategory (storage : NotesStorage) (noteId : String)
    (current : String) : String :=
  match (loadNotes storage).find? (fun n => n.id = noteId) with
  | some n => n.categoryId
  | none => current

/-- User-interface events that touch note persistence or the NoteScreen
category selection.  In the source, every navigation to the Note screen
passes either `{}` (new note) or `{ noteId: note.id }` (edit); no call
site supplies the optional `categoryId` route parameter, so that branch of
the NoteScreen effect is dead code and has no event here. -/
inductive AppEvent where
  | openNote (noteId : Option String)
  | selectCategory (i : Fin CATEGORIES.length)
  | pressSave (title content : String) (now : Nat)
  | swipeDelete (noteId : String)
  | pressClearAll

/-- Apply one UI event.  `openNote` mounts a fresh NoteScreen — state
initialized to `CATEGORIES[0].id` — and runs its `loadNote` effect when the
route id is truthy; `selectCategory` is the dropdown; `pressSave` runs
`saveNote` on the current screen state; `swipeDelete` and `pressClearAll`
run the delete and clear handlers of the other screens. -/
def applyAppEvent (s : AppState) : AppEvent → AppState
  | .openNote noteId =>
      let sel0 := (CATEGORIES.head (by decide)).id
      let sel1 :=
        if isTruthy noteId then loadNoteCategory s.storage (noteId.getD "") sel0
        else sel0
      ⟨s.storage, noteId, sel1⟩
  | .selectCategory i => ⟨s.storage, s.routeNoteId, (CATEGORIES.get i).id⟩
  | .pressSave title content now =>
      ⟨saveNote s.storage s.routeNoteId title content s.selectedCategory now,
        s.routeNoteId, s.selectedCategory⟩
  | .swipeDelete noteId => ⟨deleteNote s.storage noteId, s.routeNoteId, s.selectedCategory⟩
  | .pressClearAll => ⟨clearAllNotes s.storage, s.routeNoteId, s.selectedCategory⟩

/-- App start: no "notes" key, NoteScreen unvisited (its initial state is
`CATEGORIES[0].id`). -/
def initAppState : AppState := ⟨.absent, none, (CATEGORIES.head (by decide)).id⟩

/-- Run a sequence of UI events from app start. -/
def runApp (events : List AppEvent) : AppState :=
  events.foldl applyAppEvent initAppState

open List

/-! ### Helper lemmas about `jsTrim` and `validateContent` -/

/-- Unfold `jsTrim` through Mathlib's `rdropWhile`. -/
theorem jsTrim_data (s : String) :
    (jsTrim s).data =
      List.rdropWhile isJsWhitespace (s.data.dropWhile isJsWhitespace) := rfl

/-- Dropping leading whitespace again after a full trim changes nothing:
the head survives the right-trim of an already left-trimmed list. -/
theorem dropWhile_after_trim (p : α → Bool) (l : List α) :
    List.dropWhile p (List.rdropWhile p (List.dropWhile p l)) =
      List.rdropWhile p (List.dropWhile p l) := by
  rw [List.dropWhile_eq_self_iff]
  intro hl
  have hpre : List.rdropWhile p (List.dropWhile p l) <+: List.dropWhile p l :=
    rdropWhile_prefix p (List.dropWhile p l)
  have hlen : 0 < (List.dropWhile p l).length :=
    Nat.lt_of_lt_of_le hl hpre.length_le
  have hhead := List.dropWhile_eq_self_iff.mp
    (List.dropWhile_idempotent p l) hlen
  have hget := hpre.getElem hl
  simpa [List.get_eq_getElem, hget] using hhead

/-- JavaScript `trim` is idempotent. -/
theorem jsTrim_idem (s : String) : jsTrim (jsTrim s) = jsTrim s := by
  apply String.ext
  rw [jsTrim_data, jsTrim_data, dropWhile_after_trim,
    List.rdropWhile_idempotent]

/-- String emptiness via the character list. -/
theorem string_eq_empty_iff (s : String) : s = "" ↔ s.data = [] :=
  String.ext_iff

/-- Characterization of `validateContent`: a draft passes validation
exactly when its trimmed content is nonempty (the second branch, comparing
against `MIN_CONTENT_LENGTH = 1`, is subsumed by the first). -/
theorem validateContent_iff (content : String) :
    validateContent content = true ↔ jsTrim content ≠ "" := by
  unfold validateContent
  by_cases h : jsTrim content = ""
  · simp [h]
  · have hne : (jsTrim content).data ≠ [] := fun hd => h (String.ext hd)
    have hpos : 0 < (jsTrim content).length := by
      have : (jsTrim content).length = (jsTrim content).data.length := rfl
      rw [this]
      exact List.length_pos.mpr hne
    simp [h, MIN_CONTENT_LENGTH]
    omega

/-- Trimmed content of positive length is nonempty. -/
theorem validateContent_of_len (content : String)
    (hmin : 1 ≤ (jsTrim content).length) : validateContent content = true := by
  rw [validateContent_iff]
  intro h
  rw [h] at hmin
  simp at hmin

/-! ### C5 -/

/-- C5: `loadAll` never raises to its caller — it is a total function of
the storage state; an absent key and an unparsable value both yield the
empty collection, and a well-formed persisted value yields the full
ordered sequence of persisted notes. -/
theorem loadNotes_total_or_empty :
    loadNotes .absent = [] ∧ loadNotes .corrupt = [] ∧
      ∀ notes : List Note, loadNotes (.stored notes) = notes :=
  ⟨rfl, rfl, fun _ => rfl⟩

/-! ### C6 -/

set_option maxRecDepth 4000 in
/-- C6 counterexample: with previous content `"x"`, an input of 201
characters leaves the content at `"x"`; the claim demands the first 200
characters of the input, which differ from `"x"`.  Long input is ignored,
not truncated. -/
theorem handleContentChange_ignores_long_input :
    (handleContentChange "x" none ⟨List.replicate 201 'a'⟩).1 = "x" ∧
      ("x" : String) ≠ ⟨List.replicate 200 'a'⟩ := by
  constructor
  · decide
  · decide

/-- C6 (amended): at the change handler, input of length at most 200 is
applied verbatim and longer input is ignored — the content keeps its
previous value (the claim's truncation to 200 characters does not
happen in the handler). -/
theorem handleContentChange_spec (content : String) (error : Option String)
    (text : String) :
    (handleContentChange content error text).1 =
      if text.length ≤ MAX_CONTENT_LENGTH then text else content := by
  unfold handleContentChange
  split <;> simp

/-! ### C1 -/

/-- C1 counterexample: saving the draft `" a "` (trimmed length 1) into the
empty collection stores the note with content `"a"`, not the draft's
content `" a "`. -/
theorem saveNote_stores_trimmed_not_raw :
    loadNotes (saveNote (.stored []) none "t" " a " "life" 0) =
      [⟨"0", "t", "a", "life", 0, 0⟩] ∧ ("a" : String) ≠ " a " := by
  constructor
  · rfl
  · decide

/-- C1 (amended): for every draft whose trimmed content length is between
1 and 200 and every prior persisted collection, `save` with no existing id
followed by `loadAll` returns the prior collection extended with exactly
one new note whose content is the draft's trimmed content, whose
`categoryId` is the draft's category, and whose `createdAt` equals its
`updatedAt`. -/
theorem saveNote_new_then_load (prior : List Note)
    (title content categoryId : String) (now : Nat)
    (hmin : 1 ≤ (jsTrim content).length)
    (_hmax : (jsTrim content).length ≤ 200) :
    ∃ n : Note,
      loadNotes (saveNote (.stored prior) none title content categoryId now) =
        prior ++ [n] ∧
      n.content = jsTrim content ∧ n.categoryId = categoryId ∧
      n.title = title ∧ n.createdAt = n.updatedAt := by
  refine ⟨{ id := Nat.repr now, title := title, content := jsTrim content,
            categoryId := categoryId, createdAt := now, updatedAt := now },
    ?_, rfl, rfl, rfl, rfl⟩
  unfold saveNote
  rw [validateContent_of_len content hmin]
  simp [isTruthy, loadNotes]

/-- Witness for the amended C1 theorem at a concrete input. -/
theorem saveNote_new_then_load_witness :
    ∃ n : Note,
      loadNotes (saveNote (.stored [⟨"0", "", "old", "life", 0, 0⟩]) none
          "t" " hi " "health" 3) =
        [⟨"0", "", "old", "life", 0, 0⟩] ++ [n] ∧
      n.content = jsTrim " hi " ∧ n.categoryId = "health" ∧
      n.title = "t" ∧ n.createdAt = n.updatedAt :=
  saveNote_new_then_load [⟨"0", "", "old", "life", 0, 0⟩] "t" " hi " "health" 3
    (by decide) (by decide)

/-! ### C3 -/

/-- C3 counterexample: saving a valid draft with the supplied existing id
`"zzz"` against the empty collection persists the empty collection — no
note with a synthesized id is appended. -/
theorem saveNote_absent_id_appends_nothing :
    ¬ ∃ n : Note,
        loadNotes (saveNote (.stored []) (some "zzz") "t" "abc" "life" 7) =
          [n] := by
  rintro ⟨n, h⟩
  have h0 : loadNotes (saveNote (.stored []) (some "zzz") "t" "abc" "life" 7) =
      [] := rfl
  rw [h0] at h
  exact List.noConfusion h

/-- In-place update by an id that occurs nowhere is the identity. -/
theorem map_update_of_absent (l : List Note) (nid : String) (n : Note)
    (h : ∀ m ∈ l, m.id ≠ nid) :
    l.map (fun m => if m.id = nid then n else m) = l := by
  induction l with
  | nil => rfl
  | cons a l ih =>
    rw [List.map_cons, if_neg (h a (List.mem_cons_self a l)),
      ih (fun m hm => h m (List.mem_cons_of_mem a hm))]

/-- C3 (amended): if `save` is called with a supplied `existingId` that
matches no note in the current collection, the persisted collection is
left as it was — the draft is silently dropped; no id is synthesized and
nothing is appended. -/
theorem saveNote_absent_id_drops_draft (storage : NotesStorage)
    (noteId title content categoryId : String) (now : Nat)
    (htruthy : noteId ≠ "")
    (habsent : ∀ n ∈ loadNotes storage, n.id ≠ noteId) :
    loadNotes (saveNote storage (some noteId) title content categoryId now) =
      loadNotes storage := by
  have ht : isTruthy (some noteId) = true := by simp [isTruthy, htruthy]
  unfold saveNote
  by_cases hval : validateContent content
  · cases storage with
    | absent => simp [hval, ht, loadNotes]
    | corrupt => simp [hval, loadNotes]
    | stored notes =>
      simp only [hval, Bool.not_true, Bool.false_eq_true, if_false,
        loadNotes, ht, if_true, Option.getD_some]
      exact map_update_of_absent notes noteId _ habsent
  · simp [hval]

/-- Witness for the amended C3 theorem at a concrete input. -/
theorem saveNote_absent_id_drops_draft_witness :
    loadNotes (saveNote (.stored [⟨"1", "", "a", "life", 0, 0⟩]) (some "2")
        "t" "abc" "life" 7) =
      loadNotes (.stored [⟨"1", "", "a", "life", 0, 0⟩]) :=
  saveNote_absent_id_drops_draft (.stored [⟨"1", "", "a", "life", 0, 0⟩])
    "2" "t" "abc" "life" 7 (by decide) (by decide)

/-! ### C2 -/

/-- With pairwise distinct ids, `find` by a member's id returns exactly
that member. -/
theorem find_id_of_nodup (notes : List Note) (n : Note)
    (hnodup : (noteIds notes).Nodup) (hn : n ∈ notes) :
    notes.find? (fun m => m.id = n.id) = some n := by
  induction notes with
  | nil => cases hn
  | cons a l ih =>
    rw [noteIds, List.map_cons, List.nodup_cons] at hnodup
    rcases List.mem_cons.mp hn with rfl | hmem
    · simp
    · rw [List.find?_cons_of_neg, ih hnodup.2 hmem]
      have hne : a.id ≠ n.id := fun hc =>
        hnodup.1 (hc ▸ List.mem_map_of_mem Note.id hmem)
      simp [hne]

/-- C2: editing an existing note (supplied id present in the collection,
ids pairwise distinct as the persisted-collection invariant demands, and a
clock that has not gone backwards since the note was written) preserves
`createdAt`, moves `updatedAt` to a later-or-equal time, replaces title,
content and category, keeps every entry at its original position (the
collection is the in-place `map` of the original), and leaves the size
unchanged. -/
theorem saveNote_existing_updates (notes : List Note) (n : Note)
    (title content categoryId : String) (now : Nat)
    (hnodup : (noteIds notes).Nodup) (hn : n ∈ notes) (hid : n.id ≠ "")
    (hmin : 1 ≤ (jsTrim content).length) (hclock : n.updatedAt ≤ now) :
    ∃ updated : Note,
      updated = { id := n.id, title := title, content := jsTrim content,
                  categoryId := categoryId, createdAt := n.createdAt,
                  updatedAt := now } ∧
      loadNotes (saveNote (.stored notes) (some n.id) title content
          categoryId now) =
        notes.map (fun m => if m.id = n.id then updated else m) ∧
      updated.createdAt = n.createdAt ∧ n.updatedAt ≤ updated.updatedAt ∧
      updated.title = title ∧ updated.content = jsTrim content ∧
      updated.categoryId = categoryId ∧
      (loadNotes (saveNote (.stored notes) (some n.id) title content
          categoryId now)).length = notes.length := by
  have ht : isTruthy (some n.id) = true := by simp [isTruthy, hid]
  have hres : loadNotes (saveNote (.stored notes) (some n.id) title content
      categoryId now) =
      notes.map (fun m => if m.id = n.id then
        ({ id := n.id, title := title, content := jsTrim content,
           categoryId := categoryId, createdAt := n.createdAt,
           updatedAt := now } : Note) else m) := by
    unfold saveNote
    rw [validateContent_of_len content hmin]
    simp only [Bool.not_true, Bool.false_eq_true, if_false, ht, if_true,
      Option.getD_some, loadNotes]
    rw [find_id_of_nodup notes n hnodup hn]
  exact ⟨_, rfl, hres, rfl, hclock, rfl, rfl, rfl,
    by rw [hres, List.length_map]⟩

/-- Witness for the C2 theorem at a concrete input. -/
theorem saveNote_existing_updates_witness :
    ∃ updated : Note,
      updated = { id := "1", title := "t2", content := jsTrim " x ",
                  categoryId := "health",
                  createdAt := (⟨"1", "t1", "a", "life", 0, 2⟩ : Note).createdAt,
                  updatedAt := 5 } ∧
      loadNotes (saveNote (.stored [⟨"1", "t1", "a", "life", 0, 2⟩])
          (some (⟨"1", "t1", "a", "life", 0, 2⟩ : Note).id) "t2" " x "
          "health" 5) =
        ([(⟨"1", "t1", "a", "life", 0, 2⟩ : Note)]).map
          (fun m => if m.id = "1" then updated else m) ∧
      updated.createdAt = 0 ∧ 2 ≤ updated.updatedAt ∧
      updated.title = "t2" ∧ updated.content = jsTrim " x " ∧
      updated.categoryId = "health" ∧
      (loadNotes (saveNote (.stored [⟨"1", "t1", "a", "life", 0, 2⟩])
          (some (⟨"1", "t1", "a", "life", 0, 2⟩ : Note).id) "t2" " x "
          "health" 5)).length =
        ([(⟨"1", "t1", "a", "life", 0, 2⟩ : Note)]).length :=
  saveNote_existing_updates [⟨"1", "t1", "a", "life", 0, 2⟩]
    ⟨"1", "t1", "a", "life", 0, 2⟩ "t2" " x " "health" 5
    (by decide) (by decide) (by decide) (by decide) (by decide)

/-! ### C7 -/

/-- C7: for every collection, the per-category summary reports, for each
of the three fixed categories, an explicit entry (zero included) equal to
the number of notes with that `categoryId`; and when every note references
a valid category id the three counts sum to the collection size. -/
theorem countByCategory_counts (notes : List Note) :
    (∀ c ∈ CATEGORIES,
      (countByCategory notes).lookup c.id =
        some ((notes.filter (fun note => note.categoryId = c.id)).length)) ∧
    ((∀ n ∈ notes, validCategoryId n.categoryId = true) →
      ((countByCategory notes).map Prod.snd).sum = notes.length) := by
  constructor
  · intro c hc
    have hc' : c = (⟨"work-study", "Work and Study", "#FF6B6B"⟩ : Category) ∨
        c = ⟨"life", "Life", "#4ECDC4"⟩ ∨
        c = ⟨"health", "Health and Well-being", "#45B7D1"⟩ := by
      simpa [CATEGORIES] using hc
    rcases hc' with rfl | rfl | rfl <;> rfl
  · induction notes with
    | nil => intro _; rfl
    | cons a l ih =>
      intro hv
      have ha : a.categoryId = "work-study" ∨ a.categoryId = "life" ∨
          a.categoryId = "health" := by
        have := hv a (List.mem_cons_self a l)
        simp [validCategoryId, CATEGORIES] at this
        tauto
      have hrest := ih (fun m hm => hv m (List.mem_cons_of_mem a hm))
      simp only [countByCategory, CATEGORIES, List.map_cons, List.map_nil,
        List.sum_cons, List.sum_nil, List.filter_cons] at hrest ⊢
      rcases ha with h | h | h <;> rw [h] <;> simp <;> omega

/-- Witness for the C7 theorem at a concrete input. -/
theorem countByCategory_counts_witness :
    (countByCategory [⟨"1", "", "a", "life", 0, 0⟩]).lookup "life" =
      some (([(⟨"1", "", "a", "life", 0, 0⟩ : Note)].filter
        (fun note => note.categoryId = "life")).length) ∧
    ((countByCategory [⟨"1", "", "a", "life", 0, 0⟩]).map Prod.snd).sum =
      ([(⟨"1", "", "a", "life", 0, 0⟩ : Note)]).length :=
  ⟨(countByCategory_counts [⟨"1", "", "a", "life", 0, 0⟩]).1
      ⟨"life", "Life", "#4ECDC4"⟩ (by decide),
    (countByCategory_counts [⟨"1", "", "a", "life", 0, 0⟩]).2 (by decide)⟩

/-! ### C4 -/

/-- C4 counterexample: two consecutive new-note saves in the same
millisecond (both `Date.now()` values are 5) both synthesize the id
`"5"` — the persisted ids are not pairwise distinct. -/
theorem same_tick_saves_collide :
    ¬ (noteIds (loadNotes (runRepo
        [.save none "" "a" "life" 5, .save none "" "b" "life" 5]))).Nodup := by
  decide

/-- Ids are untouched by an in-place update whose replacement note carries
the matched id. -/
theorem noteIds_map_update (notes : List Note) (nid : String) (u : Note)
    (hu : u.id = nid) :
    noteIds (notes.map (fun m => if m.id = nid then u else m)) =
      noteIds notes := by
  unfold noteIds
  rw [List.map_map]
  apply List.map_congr_left
  intro m _
  by_cases hm : m.id = nid
  · simp [Function.comp, hm, hu]
  · simp [Function.comp, hm]

/-- Invariant step for id uniqueness: running any operation sequence whose
new-note timestamps render to pairwise distinct id strings, from a storage
whose ids are pairwise distinct and disjoint from those future id strings,
keeps the persisted ids pairwise distinct. -/
theorem foldl_ids_nodup (ops : List RepoOp) :
    ∀ s : NotesStorage,
      (noteIds (loadNotes s)).Nodup →
      (∀ id ∈ noteIds (loadNotes s), ∀ t ∈ createTimes ops,
        id ≠ Nat.repr t) →
      (createTimes ops).Pairwise (fun a b => Nat.repr a ≠ Nat.repr b) →
      (noteIds (loadNotes (ops.foldl applyRepoOp s))).Nodup := by
  induction ops with
  | nil => exact fun s h1 _ _ => h1
  | cons op ops ih =>
    intro s h1 h2 h3
    rw [List.foldl_cons]
    cases op with
    | clear =>
      refine ih _ (by simp [applyRepoOp, clearAllNotes, loadNotes, noteIds]) ?_ ?_
      · simp [applyRepoOp, clearAllNotes, loadNotes, noteIds]
      · simpa [createTimes] using h3
    | delete nid =>
      have hsub : noteIds (loadNotes (applyRepoOp s (.delete nid))) <+
          noteIds (loadNotes s) := by
        simp only [applyRepoOp, deleteNote, loadNotes, noteIds]
        exact (List.filter_sublist _).map Note.id
      refine ih _ (h1.sublist hsub) ?_ ?_
      · intro id hid t htime
        exact h2 id (hsub.mem hid) t (by simpa [createTimes] using htime)
      · simpa [createTimes] using h3
    | save rid t c cat now =>
      by_cases hval : validateContent c
      · by_cases htr : isTruthy rid
        · have hct : createTimes (RepoOp.save rid t c cat now :: ops) =
              createTimes ops := by simp [createTimes, htr]
          rw [hct] at h2 h3
          cases s with
          | corrupt => exact ih _ (by simp [applyRepoOp, saveNote, hval, loadNotes, noteIds]) (by simp [applyRepoOp, saveNote, hval, loadNotes, noteIds]) h3
          | absent =>
            refine ih _ ?_ ?_ h3
            · simp [applyRepoOp, saveNote, hval, htr, loadNotes, noteIds]
            · simp [applyRepoOp, saveNote, hval, htr, loadNotes, noteIds]
          | stored notes =>
            have hids : noteIds (loadNotes (applyRepoOp
                (.stored notes) (.save rid t c cat now))) =
                noteIds (loadNotes (.stored notes)) := by
              simp only [applyRepoOp, saveNote, hval, Bool.not_true,
                Bool.false_eq_true, if_false, htr, if_true, loadNotes]
              exact noteIds_map_update notes _ _ (by simp [htr])
            refine ih _ ?_ ?_ h3
            · rw [hids]; exact h1
            · rw [hids]; exact h2
        · have hct : createTimes (RepoOp.save rid t c cat now :: ops) =
              now :: createTimes ops := by simp [createTimes, htr]
          rw [hct] at h2 h3
          rw [List.pairwise_cons] at h3
          cases s with
          | corrupt =>
            exact ih _ (by simp [applyRepoOp, saveNote, hval, loadNotes, noteIds]) (by simp [applyRepoOp, saveNote, hval, loadNotes, noteIds]) h3.2
          | absent =>
            refine ih _ ?_ ?_ h3.2
            · simp [applyRepoOp, saveNote, hval, htr, loadNotes, noteIds]
            · simp only [applyRepoOp, saveNote, hval, Bool.not_true,
                Bool.false_eq_true, if_false, htr, loadNotes, noteIds]
              intro id hid time htime
              simp at hid
              rw [hid]
              exact h3.1 time htime
          | stored notes =>
            have hids : noteIds (loadNotes (applyRepoOp
                (.stored notes) (.save rid t c cat now))) =
                noteIds (loadNotes (.stored notes)) ++ [Nat.repr now] := by
              simp only [applyRepoOp, saveNote, hval, Bool.not_true,
                Bool.false_eq_true, if_false, htr, if_false, loadNotes,
                noteIds, List.map_append]
              simp [htr]
            refine ih _ ?_ ?_ h3.2
            · rw [hids, List.nodup_append]
              refine ⟨h1, by simp, ?_⟩
              intro id hid hid'
              simp at hid'
              exact h2 id hid now (List.mem_cons_self _ _) hid'
            · rw [hids]
              intro id hid time htime
              rcases List.mem_append.mp hid with hold | hnew
              · exact h2 id hold time (List.mem_cons_of_mem _ htime)
              · simp at hnew
                rw [hnew]
                exact h3.1 time htime
      · have hstep : applyRepoOp s (.save rid t c cat now) = s := by
          simp [applyRepoOp, saveNote, hval]
        rw [hstep]
        refine ih _ h1 ?_ ?_
        · intro id hid time htime
          refine h2 id hid time ?_
          cases hti : isTruthy rid
          · simp only [createTimes, hti, Bool.false_eq_true, if_false]
            exact List.mem_cons_of_mem _ htime
          · simpa [createTimes, hti] using htime
        · cases hti : isTruthy rid
          · have : createTimes (RepoOp.save rid t c cat now :: ops) =
                now :: createTimes ops := by simp [createTimes, hti]
            rw [this] at h3
            exact (List.pairwise_cons.mp h3).2
          · have : createTimes (RepoOp.save rid t c cat now :: ops) =
                createTimes ops := by simp [createTimes, hti]
            rw [this] at h3
            exact h3

/-- C4 (amended): across any sequence of repository operations, the
persisted note ids are pairwise distinct provided the new-note saves'
`Date.now()` values render to pairwise distinct id strings; without that
proviso the claim fails — two creates in the same millisecond share an id
(see the counterexample). -/
theorem runRepo_ids_nodup (ops : List RepoOp)
    (h : (createTimes ops).Pairwise (fun a b => Nat.repr a ≠ Nat.repr b)) :
    (noteIds (loadNotes (runRepo ops))).Nodup := by
  unfold runRepo
  refine foldl_ids_nodup ops .absent (by simp [loadNotes, noteIds]) ?_ h
  simp [loadNotes, noteIds]

/-- Witness for the amended C4 theorem at a concrete input. -/
theorem runRepo_ids_nodup_witness :
    (noteIds (loadNotes (runRepo
        [.save none "" "a" "life" 5, .save none "" "b" "life" 6,
         .delete "5", .save (some "6") "" "c" "health" 9]))).Nodup :=
  runRepo_ids_nodup
    [.save none "" "a" "life" 5, .save none "" "b" "life" 6,
     .delete "5", .save (some "6") "" "c" "health" 9] (by decide)

/-! ### C8 -/

/-- The descending-`createdAt` comparator is transitive. -/
theorem noteDateDesc_trans : ∀ a b c : Note,
    noteDateDesc a b → noteDateDesc b c → noteDateDesc a c := by
  intro a b c hab hbc
  simp only [noteDateDesc, decide_eq_true_eq] at hab hbc ⊢
  omega

/-- The descending-`createdAt` comparator is total. -/
theorem noteDateDesc_total : ∀ a b : Note,
    noteDateDesc a b || noteDateDesc b a := by
  intro a b
  simp only [noteDateDesc, Bool.or_eq_true, decide_eq_true_eq]
  omega

/-- Filtering a filter by the same predicate changes nothing. -/
theorem filter_self_idem (p : α → Bool) (l : List α) :
    (l.filter p).filter p = l.filter p :=
  List.filter_eq_self.mpr (fun _ ha => List.of_mem_filter ha)

/-- C8: for every collection, category id and limit, `latestForCategory`
returns at most `limit` notes, all with the requested `categoryId`,
ordered by `createdAt` descending; notes of equal `createdAt` keep their
original collection order (for each timestamp `t`, the returned run of
`createdAt = t` notes is a sublist of the category's notes in collection
order); and the source's `getLatestNotesForCategory` is the instance at
`limit = 3`. -/
theorem latestForCategory_spec (notes : List Note) (categoryId : String)
    (limit : Nat) :
    (latestForCategory notes categoryId limit).length ≤ limit ∧
    (∀ n ∈ latestForCategory notes categoryId limit,
      n.categoryId = categoryId) ∧
    (latestForCategory notes categoryId limit).Pairwise
      (fun a b => b.createdAt ≤ a.createdAt) ∧
    (∀ t : Nat,
      (latestForCategory notes categoryId limit).filter
          (fun n => n.createdAt = t) <+
        (notes.filter (fun note => note.categoryId = categoryId)).filter
          (fun n => n.createdAt = t)) ∧
    getLatestNotesForCategory notes categoryId =
      latestForCategory notes categoryId 3 := by
  refine ⟨List.length_take_le _ _, ?_, ?_, ?_, rfl⟩
  · intro n hn
    have hmem : n ∈ (notes.filter
        (fun note => note.categoryId = categoryId)).mergeSort noteDateDesc :=
      (List.take_sublist _ _).subset hn
    rw [List.mem_mergeSort] at hmem
    have := List.of_mem_filter hmem
    simpa using this
  · have hsorted := List.sorted_mergeSort noteDateDesc_trans noteDateDesc_total
      (notes.filter (fun note => note.categoryId = categoryId))
    have htake := hsorted.sublist (List.take_sublist limit _)
    exact htake.imp (fun h => by simpa [noteDateDesc] using h)
  · intro t
    have hpair : ((notes.filter
        (fun note => note.categoryId = categoryId)).filter
          (fun n => n.createdAt = t)).Pairwise
        (fun a b => noteDateDesc a b = true) := by
      apply List.pairwise_of_forall_mem_list
      intro a ha b hb
      have ha' := List.of_mem_filter ha
      have hb' := List.of_mem_filter hb
      simp only [decide_eq_true_eq] at ha' hb'
      simp [noteDateDesc, ha', hb']
    have h2 := List.sublist_mergeSort noteDateDesc_trans noteDateDesc_total
      hpair (List.filter_sublist _)
    have h3 : (notes.filter
        (fun note => note.categoryId = categoryId)).filter
          (fun n => n.createdAt = t) <+
        ((notes.filter
          (fun note => note.categoryId = categoryId)).mergeSort
            noteDateDesc).filter (fun n => n.createdAt = t) := by
      have := h2.filter (fun n => decide (n.createdAt = t))
      rwa [filter_self_idem] at this
    have h4 : (((notes.filter
        (fun note => note.categoryId = categoryId)).mergeSort
          noteDateDesc).filter (fun n => n.createdAt = t)).length =
        ((notes.filter
          (fun note => note.categoryId = categoryId)).filter
            (fun n => n.createdAt = t)).length :=
      ((List.mergeSort_perm _ noteDateDesc).filter _).length_eq
    have h5 := h3.eq_of_length h4.symm
    have h6 : (latestForCategory notes categoryId limit).filter
        (fun n => n.createdAt = t) <+
        ((notes.filter
          (fun note => note.categoryId = categoryId)).mergeSort
            noteDateDesc).filter (fun n => n.createdAt = t) :=
      (List.take_sublist _ _).filter _
    rw [← h5] at h6
    exact h6


/-! ### C9 and C10 -/

/-- Every note in a post-`saveNote` collection is either an original note
or carries the draft's (validated, trimmed) content and the selected
category. -/
theorem mem_saveNote (storage : NotesStorage) (routeNoteId : Option String)
    (title content selectedCategory : String) (now : Nat) (n : Note)
    (hn : n ∈ loadNotes (saveNote storage routeNoteId title content
      selectedCategory now)) :
    n ∈ loadNotes storage ∨
      (validateContent content = true ∧ n.content = jsTrim content ∧
        n.categoryId = selectedCategory) := by
  unfold saveNote at hn
  by_cases hval : validateContent content
  · simp only [hval, Bool.not_true, Bool.false_eq_true, if_false] at hn
    cases storage with
    | corrupt => exact Or.inl hn
    | absent =>
      cases hti : isTruthy routeNoteId <;>
        simp only [hti, Bool.false_eq_true, if_false, if_true,
          loadNotes, List.nil_append] at hn
      · rw [List.mem_singleton] at hn
        exact Or.inr ⟨hval, by rw [hn], by rw [hn]⟩
      · cases hn
    | stored notes =>
      cases hti : isTruthy routeNoteId <;>
        simp only [hti, Bool.false_eq_true, if_false, if_true,
          loadNotes] at hn
      · rcases List.mem_append.mp hn with hold | hnew
        · exact Or.inl hold
        · rw [List.mem_singleton] at hnew
          exact Or.inr ⟨hval, by rw [hnew], by rw [hnew]⟩
      · rcases List.mem_map.mp hn with ⟨m, hm, hfm⟩
        by_cases hid : m.id = routeNoteId.getD ""
        · rw [if_pos hid] at hfm
          exact Or.inr ⟨hval, by rw [← hfm], by rw [← hfm]⟩
        · rw [if_neg hid] at hfm
          exact Or.inl (hfm ▸ hm)
  · simp only [hval, Bool.not_false, if_true] at hn
    exact Or.inl hn

/-- Category-validity invariant for whole-app traces: the NoteScreen
selection and every persisted note stay inside the fixed category set. -/
theorem app_category_invariant (events : List AppEvent) :
    ∀ s : AppState,
      validCategoryId s.selectedCategory = true →
      (∀ n ∈ loadNotes s.storage, validCategoryId n.categoryId = true) →
      validCategoryId (events.foldl applyAppEvent s).selectedCategory =
          true ∧
        ∀ n ∈ loadNotes (events.foldl applyAppEvent s).storage,
          validCategoryId n.categoryId = true := by
  induction events with
  | nil => exact fun s h1 h2 => ⟨h1, h2⟩
  | cons ev events ih =>
    intro s h1 h2
    rw [List.foldl_cons]
    cases ev with
    | openNote noteId =>
      refine ih _ ?_ h2
      simp only [applyAppEvent]
      cases hti : isTruthy noteId <;>
        simp only [hti, Bool.false_eq_true, if_false, if_true]
      · decide
      · unfold loadNoteCategory
        cases hfind : (loadNotes s.storage).find?
            (fun n => n.id = noteId.getD "") with
        | none => decide
        | some m => exact h2 m (List.mem_of_find?_eq_some hfind)
    | selectCategory i =>
      refine ih _ ?_ h2
      simp only [applyAppEvent, validCategoryId]
      rw [List.any_eq_true]
      exact ⟨CATEGORIES.get i, CATEGORIES.get_mem i.1 i.2, by simp⟩
    | pressSave title content now =>
      refine ih _ h1 ?_
      intro n hn
      rcases mem_saveNote s.storage s.routeNoteId title content
          s.selectedCategory now n hn with hold | ⟨_, _, hcat⟩
      · exact h2 n hold
      · rw [hcat]; exact h1
    | swipeDelete noteId =>
      refine ih _ h1 ?_
      intro n hn
      simp only [applyAppEvent, deleteNote, loadNotes] at hn
      exact h2 n (List.mem_of_mem_filter hn)
    | pressClearAll =>
      refine ih _ h1 ?_
      intro n hn
      simp [applyAppEvent, clearAllNotes, loadNotes] at hn

/-- C9: in every app-reachable persisted collection, every note's
`categoryId` references one of the three fixed categories — `saveNote`
only ever writes the NoteScreen selection, which starts at
`CATEGORIES[0]` and can only move to a dropdown category or to the valid
category of a loaded note. -/
theorem app_notes_have_valid_category (events : List AppEvent) :
    ∀ n ∈ loadNotes (runApp events).storage,
      validCategoryId n.categoryId = true :=
  (app_category_invariant events initAppState (by decide)
    (by intro n hn; cases hn)).2

/-- Witness for the C9 theorem at a concrete input. -/
theorem app_notes_have_valid_category_witness :
    (⟨"3", "t", "hello", "work-study", 3, 3⟩ : Note) ∈
      loadNotes (runApp [.openNote none, .pressSave "t" "hello" 3]).storage ∧
    validCategoryId
      (⟨"3", "t", "hello", "work-study", 3, 3⟩ : Note).categoryId = true :=
  ⟨by decide,
    app_notes_have_valid_category [.openNote none, .pressSave "t" "hello" 3]
      ⟨"3", "t", "hello", "work-study", 3, 3⟩ (by decide)⟩

/-- Trimmed-content invariant for repository traces: every persisted note
content is its own trimmed form and nonempty. -/
theorem repo_content_invariant (ops : List RepoOp) :
    ∀ s : NotesStorage,
      (∀ n ∈ loadNotes s, n.content = jsTrim n.content ∧ n.content ≠ "") →
      ∀ n ∈ loadNotes (ops.foldl applyRepoOp s),
        n.content = jsTrim n.content ∧ n.content ≠ "" := by
  induction ops with
  | nil => exact fun s h => h
  | cons op ops ih =>
    intro s h
    rw [List.foldl_cons]
    cases op with
    | save rid t c cat now =>
      refine ih _ ?_
      intro n hn
      rcases mem_saveNote s rid t c cat now n hn with hold | ⟨hval, hc, _⟩
      · exact h n hold
      · refine ⟨?_, ?_⟩
        · rw [hc, jsTrim_idem]
        · rw [hc]
          exact (validateContent_iff c).mp hval
    | delete noteId =>
      refine ih _ ?_
      intro n hn
      simp only [applyRepoOp, deleteNote, loadNotes] at hn
      exact h n (List.mem_of_mem_filter hn)
    | clear =>
      refine ih _ ?_
      intro n hn
      simp [applyRepoOp, clearAllNotes, loadNotes] at hn

/-- C10: in every collection reachable through the repository operations,
every note's content equals its own trimmed form (no leading or trailing
whitespace) and has length at least 1: `save` stores the trimmed draft
content, and `deleteById` and `clearAll` preserve the property. -/
theorem repo_contents_trimmed (ops : List RepoOp) :
    ∀ n ∈ loadNotes (runRepo ops),
      n.content = jsTrim n.content ∧ 1 ≤ n.content.length := by
  intro n hn
  have h := repo_content_invariant ops .absent
    (by intro n hn; cases hn) n hn
  refine ⟨h.1, ?_⟩
  have hne : n.content.data ≠ [] := fun hd => h.2 (String.ext hd)
  have hlen : n.content.length = n.content.data.length := rfl
  rw [hlen]
  exact List.length_pos.mpr hne

/-- Witness for the C10 theorem at a concrete input. -/
theorem repo_contents_trimmed_witness :
    (⟨"1", "t", "hi", "life", 1, 1⟩ : Note) ∈
      loadNotes (runRepo [.save none "t" " hi " "life" 1]) ∧
    (⟨"1", "t", "hi", "life", 1, 1⟩ : Note).content =
      jsTrim (⟨"1", "t", "hi", "life", 1, 1⟩ : Note).content ∧
    1 ≤ (⟨"1", "t", "hi", "life", 1, 1⟩ : Note).content.length :=
  ⟨by decide,
    repo_contents_trimmed [.save none "t" " hi " "life" 1]
      ⟨"1", "t", "hi", "life", 1, 1⟩ (by decide)⟩

/-- Witness for the C8 theorem at a concrete input. -/
theorem latestForCategory_spec_witness :
    (latestForCategory [⟨"1", "", "x", "life", 5, 5⟩] "life" 1).length ≤ 1 ∧
    (⟨"1", "", "x", "life", 5, 5⟩ : Note).categoryId = "life" ∧
    ((latestForCategory [⟨"1", "", "x", "life", 5, 5⟩] "life" 1).filter
        (fun n => n.createdAt = 5) <+
      (([(⟨"1", "", "x", "life", 5, 5⟩ : Note)]).filter
        (fun note => note.categoryId = "life")).filter
          (fun n => n.createdAt = 5)) :=
  ⟨(latestForCategory_spec [⟨"1", "", "x", "life", 5, 5⟩] "life" 1).1,
    (latestForCategory_spec [⟨"1", "", "x", "life", 5, 5⟩] "life" 1).2.1
      ⟨"1", "", "x", "life", 5, 5⟩ (by
        have h : latestForCategory [⟨"1", "", "x", "life", 5, 5⟩] "life" 1 =
            [⟨"1", "", "x", "life", 5, 5⟩] := by
          simp [latestForCategory]
        rw [h]
        exact List.mem_singleton_self _),
    (latestForCategory_spec [⟨"1", "", "x", "life", 5, 5⟩] "life" 1).2.2.2.1 5⟩

end NotesApp
